import Mathlib

/-!
# Verification of the illex JSON stream generator core

Shallow embedding of the core algorithms of the illex repository
(`src/illex/client_buffering.cpp`, `client_queueing.cpp`, `producer.cpp`,
`server.cpp`, `include/illex/latency.h`) together with proofs about them.

Bytes are modelled as natural numbers; the record separator is the newline
byte `0x0A = 10`.  Machine integers (`size_t`, `uint64_t`) are modelled as
`Nat` with an explicit `% 2^64` at the one place the C++ arithmetic can wrap
(the `SetRange` computation in `JSONBuffer::Scan`).  The do-while loop of
`JSONBuffer::Scan` does not terminate on all inputs, so it is embedded as a
fuel-indexed step machine; `none` means the loop has not exited within the
given fuel.
-/

namespace Illex

/-- The record separator byte, `'\n'` (the default `whitespace_char`). -/
def newline : Nat := 10

/-- Model of C `memchr(p, '\n', n)` restricted to a list: index of the first
newline byte, if any.  The index is returned as `Fin l.length` so that the
bound is available for termination arguments; `.val` gives the C offset. -/
def memchr : (l : List Nat) → Option (Fin l.length)
  | [] => none
  | a :: t => if a = newline then some ⟨0, Nat.succ_pos t.length⟩
              else (memchr t).map Fin.succ

/-- `memchr` from offset `i` of a buffer `s`, as used by the scan loops:
the C code calls `memchr(json_start, '\n', remaining)` where `json_start`
is `buffer + i` and `remaining` is `s.length - i`.  The result is the
absolute offset into `s`. -/
def memchrFrom (s : List Nat) (i : Nat) : Option Nat :=
  (memchr (s.drop i)).map (fun j => j.val + i)

/-- `SeqRange` (include/illex/client_buffering.h): inclusive range of
sequence numbers. -/
structure SeqRange where
  first : Nat
  last : Nat
deriving DecidableEq, Repr

/-- 2^64, the modulus of `uint64_t` / `size_t` arithmetic. -/
def UINT64 : Nat := 2 ^ 64

/-!
## JSONBuffer::Scan (client_buffering.cpp lines 83-114)

The loop state is the pair `(json_start, num_jsons)` of the current record
start offset and the count so far.  The variable `remaining` always equals
`num_bytes - json_start` (it starts as `num_bytes` with `json_start = 0`,
and is recomputed as `(recv_chars + num_bytes) - json_start` each time a
separator is found), so it is not part of the state.  The slice `s` is
exactly the first `num_bytes` bytes of the buffer.
-/

/-- One iteration of the do-while loop of `JSONBuffer::Scan`.
`Sum.inr` is loop exit carrying the returned pair `(num_jsons, remaining)`;
`Sum.inl` is the next state. -/
def scanStep (s : List Nat) (st : Nat × Nat) : (Nat × Nat) ⊕ (Nat × Nat) :=
  match memchrFrom s st.1 with
  | none => Sum.inr (st.2, s.length - st.1)
  | some j =>
    -- json_len = json_end - json_start; count if positive
    let c := st.2 + if st.1 < j then 1 else 0
    -- "Move the start scan index to the character after the newline.
    --  But only if the json end is not the last character."
    -- The code's guard is `json_start != json_end - 1`, i.e. it refuses to
    -- advance exactly when the record has length 1.
    let start := if j = st.1 + 1 then st.1 else j + 1
    -- do-while condition: (json_end != nullptr) && (json_start != json_end)
    if start = j then Sum.inr (c, s.length - start) else Sum.inl (start, c)

/-- Fuel-indexed run of the `JSONBuffer::Scan` do-while loop.  `none` means
the loop has not exited within `fuel` iterations. -/
def scanRun (s : List Nat) : Nat → Nat × Nat → Option (Nat × Nat)
  | 0, _ => none
  | fuel + 1, st =>
    match scanStep s st with
    | Sum.inr r => some r
    | Sum.inl st2 => scanRun s fuel st2

/-- `JSONBuffer::Scan(num_bytes, seq)` on slice `s` (the first `num_bytes`
buffer bytes): returns `(num_jsons, remaining)` when the loop exits within
`fuel` iterations. -/
def scan (s : List Nat) (fuel : Nat) : Option (Nat × Nat) :=
  scanRun s fuel (0, 0)

/-- `JSONBuffer::Scan` including its final `SetRange({first, first + num_jsons - 1})`:
`first = seq` and the `- 1` is `uint64_t` arithmetic, so the stored range is
`{seq, (seq + num_jsons + 2^64 - 1) % 2^64}`. -/
def scanWithRange (s : List Nat) (seq : Nat) (fuel : Nat) :
    Option ((Nat × Nat) × SeqRange) :=
  (scanRun s fuel (0, 0)).map
    (fun r => (r, ⟨seq, (seq + r.1 + (UINT64 - 1)) % UINT64⟩))

/-- `JSONBuffer::Reset` sets `size_ = 0` and `seq_range = {0, 0}`. -/
def resetSeqRange : SeqRange := ⟨0, 0⟩

/-- Observable state of a `JSONBuffer` as set up by `JSONBuffer::Create`. -/
structure JSONBufferState where
  size : Nat
  capacity : Nat
  seq_range : SeqRange
deriving DecidableEq, Repr

/-- `JSONBuffer::Create(buffer, capacity, out)` (client_buffering.cpp lines
32-42).  The backing pointer is modelled by whether it is null. -/
def jsonBufferCreate (buffer_is_null : Bool) (capacity : Nat) :
    Except String JSONBufferState :=
  if buffer_is_null then .error "Pre-allocated buffer cannot be nullptr."
  else if capacity = 0 then .error "Size cannot be 0."
  else .ok ⟨0, capacity, ⟨0, 0⟩⟩

/-- Total reformulation of the `JSONBuffer::Scan` loop, recursing on the
unscanned suffix: the loop state `(json_start, count)` is replaced by the
list `l = s.drop json_start` and the accumulated count.  `none` models the
case where the C++ loop never exits (the length-1 record situation, in
which the guard `json_start != json_end - 1` keeps `json_start` in place
forever).  Proved equivalent to `scanRun` in `scanRun_some_iff_scanRec`
below; used to give the well-founded induction that the raw fuel-indexed
machine does not support. -/
def scanRec (l : List Nat) (c : Nat) : Option (Nat × Nat) :=
  match memchr l with
  | none => some (c, l.length)
  | some j =>
    if j.val = 1 then none
    else scanRec (l.drop (j.val + 1)) (c + if 0 < j.val then 1 else 0)
termination_by l.length
decreasing_by
  have hj := j.isLt
  simp only [List.length_drop]
  omega

/-!
## BufferingClient::ReceiveJSONs — one receive-scan-spill step
(client_buffering.cpp lines 142-214)

After acquiring a buffer, the client copies the `remaining` spilled bytes to
the front, receives `bytes_received` more bytes behind them, scans the first
`remaining + bytes_received` bytes, advances `seq` by `num_jsons`, sets
`size = scan_size - tail`, and copies the last `tail` bytes back to `spill`.
The observables of one step are the new spill contents, the new `seq`, and
the number of JSONs counted.
-/

/-- Observables of one (or a sequence of) receive-scan-spill steps. -/
structure FeedResult where
  spill : List Nat
  seq : Nat
  total : Nat
deriving DecidableEq, Repr

/-- One receive-scan-spill step of `BufferingClient::ReceiveJSONs` on a
received `slice`, given the carried-over `spill` bytes and current `seq`.
The scanned buffer contents are `spill ++ slice`; `none` if the scan loop
does not exit within `fuel`. -/
def clientStep (spill : List Nat) (seq : Nat) (slice : List Nat) (fuel : Nat) :
    Option FeedResult :=
  match scanRun (spill ++ slice) fuel (0, 0) with
  | none => none
  | some (n, t) =>
    some ⟨(spill ++ slice).drop ((spill ++ slice).length - t), seq + n, n⟩

/-- Feeding the client a single slice, starting with an empty spill. -/
def feedOne (s : List Nat) (seq fuel : Nat) : Option FeedResult :=
  clientStep [] seq s fuel

/-- Feeding the client two consecutive slices, starting with an empty spill;
`total` accumulates the JSON counts of both steps. -/
def feedTwo (s1 s2 : List Nat) (seq f1 f2 : Nat) : Option FeedResult :=
  match clientStep [] seq s1 f1 with
  | none => none
  | some r1 =>
    match clientStep r1.spill r1.seq s2 f2 with
    | none => none
    | some r2 => some ⟨r2.spill, r2.seq, r1.total + r2.total⟩

/-- Total reformulation of `clientStep` via `scanRec` (proof device). -/
def clientStepRec (spill : List Nat) (seq : Nat) (slice : List Nat) :
    Option FeedResult :=
  match scanRec (spill ++ slice) 0 with
  | none => none
  | some (n, t) =>
    some ⟨(spill ++ slice).drop ((spill ++ slice).length - t), seq + n, n⟩

/-- Total reformulation of `feedOne` (proof device). -/
def feedOneRec (s : List Nat) (seq : Nat) : Option FeedResult :=
  clientStepRec [] seq s

/-- Total reformulation of `feedTwo` (proof device). -/
def feedTwoRec (s1 s2 : List Nat) (seq : Nat) : Option FeedResult :=
  match clientStepRec [] seq s1 with
  | none => none
  | some r1 =>
    match clientStepRec r1.spill r1.seq s2 with
    | none => none
    | some r2 => some ⟨r2.spill, r2.seq, r1.total + r2.total⟩

/-!
## EnqueueAllJSONsInBuffer (client_queueing.cpp lines 84-139)

Same memchr loop shape, but every found separator enqueues an owned
`JSONItem{seq, json_buffer}` and increments `seq`, with no length-0 check.
The loop state is `(json_start, json_buffer, seq)`; `remaining` again always
equals `tcp_valid_bytes - json_start`.  Each step strictly advances
`json_start` past the found separator, so the loop is total and is embedded
by well-founded recursion on the unscanned byte count.  (The do-while
condition `remaining > 0` exits without the final append exactly when the
last scanned byte was a separator; recursing once more in that situation
finds no separator and appends nothing, which is the same result.) -/
def enqueueLoop (s : List Nat) (start : Nat) (buf : List Nat) (seq : Nat) :
    List (Nat × List Nat) × Nat × List Nat :=
  match h : memchrFrom s start with
  | none =>
    -- json_end == nullptr: append the remaining bytes to json_buffer, exit.
    ([], seq, buf ++ s.drop start)
  | some j =>
    -- append bytes [start, j) to json_buffer, enqueue {seq, json_buffer},
    -- seq++, clear json_buffer, json_start = json_end + 1.
    let rest := enqueueLoop s (j + 1) [] (seq + 1)
    ((seq, buf ++ (s.take j).drop start) :: rest.1, rest.2)
termination_by s.length - start
decreasing_by
  simp only [memchrFrom, Option.map_eq_some'] at h
  obtain ⟨j0, hj0, rfl⟩ := h
  have := j0.isLt
  simp only [List.length_drop] at this
  omega

/-- `EnqueueAllJSONsInBuffer(json_buffer, recv_buffer, tcp_valid_bytes, ...)`
with `s` the first `tcp_valid_bytes` bytes of the receive buffer and `buf`
the (persistent) `json_buffer` string: returns the enqueued
`JSONItem{seq, string}` list, the final `seq`, and the final `json_buffer`
contents. -/
def enqueueAllJSONsInBuffer (buf : List Nat) (s : List Nat) (seq : Nat) :
    List (Nat × List Nat) × Nat × List Nat :=
  enqueueLoop s 0 buf seq

/-!
## LatencyTracker (include/illex/latency.h)
-/

/-- `LatencyTracker` state: the allocation `points` has exactly
`num_samples * num_stages` slots.  Timestamps are abstracted as `Nat`. -/
structure LatencyTracker where
  num_samples : Nat
  num_stages : Nat
  sample_interval : Nat
  points : List Nat
deriving DecidableEq, Repr

/-- Outcome of `LatencyTracker::Get`: a returned timestamp, the out-of-range
`runtime_error`, or a read outside the `points_` allocation (undefined
behaviour in the C++; the attempted offset is recorded). -/
inductive GetOutcome where
  | ok (t : Nat)
  | outOfRange
  | oobRead (offset : Nat)
deriving DecidableEq, Repr

/-- `LatencyTracker::Get(index, stage)` (latency.h lines 80-88).  Note the
code's bound check on the sample index is `index > num_samples_`, strict
greater-than. -/
def LatencyTracker.get (lt : LatencyTracker) (index stage : Nat) : GetOutcome :=
  if stage ≥ lt.num_stages then .outOfRange        -- "Stage index out of bounds."
  else if index > lt.num_samples then .outOfRange  -- "Sample index out of bounds."
  else
    match lt.points.get? (index * lt.num_stages + stage) with
    | some v => .ok v
    | none => .oobRead (index * lt.num_stages + stage)

/-!
## Producer::Start work split (producer.cpp lines 105-151)
-/

/-- Per-worker workload. -/
structure ThreadWork where
  batches : Nat
  jsons : Nat
deriving DecidableEq, Repr

/-- The workload split computed by `Producer::Start` for `num_threads`
workers: worker `t` is passed `(thread_batches, thread_jsons)`.  Mirrors the
source exactly, including the remainder computations
`num_jsons % jsons_per_thread` and `num_batches % batches_per_thread`
(moduli the per-thread share, not the thread count). -/
def producerStartSplit (num_jsons num_batches num_threads : Nat)
    (batching : Bool) : List ThreadWork :=
  let jsons_per_thread0 := num_jsons / num_threads
  let jsons_remainder :=
    if jsons_per_thread0 = 0 then num_jsons
    else num_jsons % jsons_per_thread0
  let batches_per_thread :=
    if batching then num_batches / num_threads else 1
  let batches_remainder :=
    if batching then
      if num_batches / num_threads = 0 then num_batches
      else num_batches % (num_batches / num_threads)
    else 0
  let jsons_per_thread := if batching then num_jsons else jsons_per_thread0
  (List.range num_threads).map (fun t =>
    ⟨batches_per_thread + (if t = 0 then batches_remainder else 0),
     jsons_per_thread + (if t = 0 then jsons_remainder else 0)⟩)

/-!
## ProductionThread (producer.cpp lines 59-94)

The value generator and serialisation are external collaborators; what is
modelled is the control flow: the for-loop over `num_batches` batches and
the enqueue retry loop
`while (!queue->try_enqueue(batch) && !shutdown->load())`.
`enq k` tells whether the `k`-th `try_enqueue` call made by this thread
succeeds; the shutdown flag is modelled in the state it has for the whole
run (the counterexample sets it before the thread starts).  The retry loop
can spin forever when the flag is down and the queue stays full, so it is
fuel-indexed.
-/

/-- The enqueue retry loop for one batch, starting at global attempt number
`attempt`: returns `(attempts made, enqueued?)`, or `none` if the loop is
still spinning after `fuel` attempts.  `queue_full` is incremented once per
failed attempt that is followed by a retry, i.e. `attempts - 1` times. -/
def retryEnqueue (enq : Nat → Bool) (sd : Bool) (attempt : Nat) :
    Nat → Option (Nat × Bool)
  | 0 => none
  | fuel + 1 =>
    if enq attempt then some (1, true)
    else if sd then some (1, false)
    else
      match retryEnqueue enq sd (attempt + 1) fuel with
      | none => none
      | some (k, ok) => some (k + 1, ok)

/-- Observables of one `ProductionThread` run. -/
structure ThreadObs where
  batches_assembled : Nat
  enqueue_attempts : Nat
  queue_full : Nat
  batches_enqueued : Nat
deriving DecidableEq, Repr

/-- The batch for-loop of `ProductionThread`: `left` batches remain,
`attempt` is the global try_enqueue attempt counter. -/
def productionLoop (enq : Nat → Bool) (sd : Bool) (fuel : Nat) :
    Nat → Nat → ThreadObs → Option ThreadObs
  | 0, _, acc => some acc
  | left + 1, attempt, acc =>
    -- assemble the next batch (generation is external), then enqueue it
    match retryEnqueue enq sd attempt fuel with
    | none => none
    | some (k, ok) =>
      productionLoop enq sd fuel left (attempt + k)
        { batches_assembled := acc.batches_assembled + 1
          enqueue_attempts := acc.enqueue_attempts + k
          queue_full := acc.queue_full + (k - 1)
          batches_enqueued := acc.batches_enqueued + if ok then 1 else 0 }

/-- `ProductionThread` for `num_batches` batches under a shutdown flag `sd`
and an enqueue success schedule `enq`. -/
def productionThread (num_batches : Nat) (enq : Nat → Bool) (sd : Bool)
    (fuel : Nat) : Option ThreadObs :=
  productionLoop enq sd fuel num_batches 0 ⟨0, 0, 0, 0⟩

/-!
## Server::SendJSONs send step and BufferingClient exit paths
-/

/-- kissnet socket status as observed by the send/receive loops. -/
inductive SocketStatus where
  | valid
  | cleanly_disconnected
  | errored (code : Nat)
deriving DecidableEq, Repr

/-- The per-batch send check of `Server::SendJSONs` (server.cpp lines
114-122): `client.send` returns `(bytes_sent, status)`; the loop returns a
`ServerError` iff the status is not `valid`.  `some msg` is the error
return, `none` means the loop continues with the next batch.  Neither
`bytes_sent` nor the batch length is inspected. -/
def sendBatchStep (send_result : Nat × SocketStatus) (batch : List Nat) :
    Option String :=
  if send_result.2 ≠ SocketStatus.valid then
    some "Socket not valid after send"
  else none

/-- Resource facts at a return from `BufferingClient::ReceiveJSONs`. -/
structure ExitInfo where
  isError : Bool
  mutexHeld : Bool
  spillFreed : Bool
deriving DecidableEq, Repr

/-- Exit behaviour of one iteration of the `while (client->is_valid())` loop
of `BufferingClient::ReceiveJSONs` (client_buffering.cpp lines 149-213):
given whether the socket was still valid at the loop head, whether
`TryGetEmptyBuffer` handed over a locked buffer, whether the `recv` call
threw (the exception is caught while the buffer mutex is held), and the
socket status reported by `recv`.  `none` means the loop continues;
`some e` records, at the corresponding `return`, whether a `ClientError` is
returned, whether the acquired buffer mutex is still locked, and whether
`free(spill)` has run. -/
def receiveIterOutcome (socket_valid got_buffer raised : Bool)
    (status : SocketStatus) : Option ExitInfo :=
  if ¬socket_valid then
    -- loop exit: free(spill); return Status::OK()
    some ⟨false, false, true⟩
  else if got_buffer then
    if raised then
      -- catch: return ClientError  (no unlock, no free(spill))
      some ⟨true, true, false⟩
    else
      match status with
      | .cleanly_disconnected =>
        -- unlock; free(spill); return Status::OK()
        some ⟨false, false, true⟩
      | .valid =>
        -- unlock; continue the loop
        none
      | .errored _ =>
        -- return ClientError  (no unlock, no free(spill))
        some ⟨true, true, false⟩
  else
    -- sleep 100us; continue the loop
    none

/-!
## Lemmas about memchr
-/

theorem memchr_none_count {l : List Nat} (h : memchr l = none) :
    l.count newline = 0 := by
  induction l with
  | nil => rfl
  | cons a t ih =>
    simp only [memchr] at h
    by_cases ha : a = newline
    · simp [ha] at h
    · simp only [ha, if_false, Option.map_eq_none'] at h
      simp [List.count_cons, ha, ih h]

theorem memchr_some_count {l : List Nat} {j : Fin l.length}
    (h : memchr l = some j) :
    l.count newline = (l.drop (j.val + 1)).count newline + 1 := by
  induction l with
  | nil => exact absurd j.isLt (by simp)
  | cons a t ih =>
    simp only [memchr] at h
    by_cases ha : a = newline
    · simp only [ha, if_true, Option.some.injEq] at h
      subst h
      simp [List.count_cons, ha]
    · simp only [ha, if_false, Option.map_eq_some'] at h
      obtain ⟨j0, hj0, hval⟩ := h
      have hv : j.val = j0.val + 1 := by
        subst hval; rfl
      rw [List.count_cons, if_neg (by simpa using ha), hv]
      simpa using ih hj0

theorem memchr_append_val {s1 s2 : List Nat} {j : Fin s1.length}
    (h : memchr s1 = some j) :
    (memchr (s1 ++ s2)).map Fin.val = some j.val := by
  induction s1 with
  | nil => exact absurd j.isLt (by simp)
  | cons a t ih =>
    simp only [memchr, List.cons_append] at h ⊢
    by_cases ha : a = newline
    · simp only [ha, if_true, Option.some.injEq] at h
      subst h
      simp [ha]
    · simp only [ha, if_false, Option.map_eq_some'] at h
      obtain ⟨j0, hj0, hval⟩ := h
      have hih := ih hj0
      rw [Option.map_eq_some'] at hih
      obtain ⟨j1, hj1, hv1⟩ := hih
      simp only [ha, if_false, Option.map_map]
      show Option.map (Fin.val ∘ Fin.succ) (memchr (t ++ s2)) = some j.val
      rw [hj1]
      simp only [Option.map_some', Option.some.injEq, Function.comp_apply,
        Fin.val_succ]
      rw [hv1]
      subst hval
      rfl

theorem memchrFrom_zero (l : List Nat) :
    memchrFrom l 0 = (memchr l).map Fin.val := by
  simp [memchrFrom]

theorem memchrFrom_bounds {s : List Nat} {i j : Nat}
    (h : memchrFrom s i = some j) : i ≤ j ∧ j < s.length := by
  simp only [memchrFrom, Option.map_eq_some'] at h
  obtain ⟨j0, _, rfl⟩ := h
  have := j0.isLt
  simp only [List.length_drop] at this
  omega

theorem memchrFrom_shift (s : List Nat) (k i : Nat) :
    memchrFrom s (k + i) = (memchrFrom (s.drop k) i).map (· + k) := by
  simp only [memchrFrom, Option.map_map]
  rw [List.drop_drop]
  cases hm : memchr (s.drop (k + i)) with
  | none => simp
  | some j =>
    simp only [Option.map_some', Option.some.injEq, Function.comp_apply]
    omega

/-!
## The scan step machine: shift, unfolding, monotonicity
-/

theorem scanStep_shift (s : List Nat) (k i c : Nat) :
    scanStep s (k + i, c) =
      match scanStep (s.drop k) (i, c) with
      | Sum.inr r => Sum.inr r
      | Sum.inl st => Sum.inl (k + st.1, st.2) := by
  simp only [scanStep, memchrFrom_shift s k i]
  cases hm : memchrFrom (s.drop k) i with
  | none =>
    simp only [Option.map_none', List.length_drop]
    congr 2
    omega
  | some j =>
    simp only [Option.map_some']
    by_cases hji : j = i + 1
    · subst hji
      rw [if_pos (by omega : i + 1 + k = k + i + 1), if_pos rfl]
      rw [if_neg (by omega : ¬(k + i = i + 1 + k)), if_neg (by omega : ¬(i = i + 1))]
      rw [if_pos (by omega : k + i < i + 1 + k), if_pos (by omega : i < i + 1)]
    · rw [if_neg (by omega : ¬(j + k = k + i + 1)), if_neg hji]
      rw [if_neg (by omega : ¬(j + k + 1 = j + k)), if_neg (by omega : ¬(j + 1 = j))]
      have h1 : (k + i < j + k) ↔ (i < j) := by omega
      have h2 : j + k + 1 = k + (j + 1) := by omega
      simp only [h1, h2]

theorem scanRun_shift (s : List Nat) :
    ∀ (f : Nat) (k i c : Nat),
      scanRun s f (k + i, c) = scanRun (s.drop k) f (i, c) := by
  intro f
  induction f with
  | zero => intro k i c; rfl
  | succ f ih =>
    intro k i c
    simp only [scanRun, scanStep_shift s k i c]
    cases hs : scanStep (s.drop k) (i, c) with
    | inr r => rfl
    | inl st => exact ih k st.1 st.2

theorem scanRun_zero_none {l : List Nat} (h : memchr l = none) (f c : Nat) :
    scanRun l (f + 1) (0, c) = some (c, l.length) := by
  simp only [scanRun, scanStep, memchrFrom_zero, h, Option.map_none',
    Nat.sub_zero]

theorem scanRun_stuck {l : List Nat} {j : Fin l.length}
    (h : memchr l = some j) (hj : j.val = 1) :
    ∀ f c, scanRun l f (0, c) = none := by
  intro f
  induction f with
  | zero => intro c; rfl
  | succ f ih =>
    intro c
    have hm : memchrFrom l 0 = some 1 := by
      rw [memchrFrom_zero, h, Option.map_some', hj]
    simp only [scanRun, scanStep, hm]
    norm_num
    exact ih (c + 1)

theorem scanRun_step1 {l : List Nat} {j : Fin l.length}
    (h : memchr l = some j) (hj : j.val ≠ 1) (f c : Nat) :
    scanRun l (f + 1) (0, c) =
      scanRun (l.drop (j.val + 1)) f (0, c + if 0 < j.val then 1 else 0) := by
  have hm : memchrFrom l 0 = some j.val := by
    rw [memchrFrom_zero, h, Option.map_some']
  simp only [scanRun, scanStep, hm]
  have hne : ¬(j.val = 0 + 1) := by omega
  simp only [Nat.zero_add] at hne ⊢
  rw [if_neg hne]
  rw [if_neg (by omega : ¬(j.val + 1 = j.val))]
  have := scanRun_shift l f (j.val + 1) 0 (c + if 0 < j.val then 1 else 0)
  rw [Nat.add_zero] at this
  exact this

theorem scanRun_mono (s : List Nat) :
    ∀ (f : Nat) (st : Nat × Nat) (r : Nat × Nat) (f2 : Nat),
      scanRun s f st = some r → f ≤ f2 → scanRun s f2 st = some r := by
  intro f
  induction f with
  | zero => intro st r f2 h; exact absurd h (by simp [scanRun])
  | succ f ih =>
    intro st r f2 h hle
    obtain ⟨f2', rfl⟩ : ∃ f2', f2 = f2' + 1 := by
      cases f2 with
      | zero => omega
      | succ n => exact ⟨n, rfl⟩
    simp only [scanRun] at h ⊢
    cases hs : scanStep s st with
    | inr r' => rw [hs] at h; exact h
    | inl st2 =>
      rw [hs] at h
      exact ih st2 r f2' h (by omega)

/-!
## scanRec: equations and equivalence with the fuel-indexed machine
-/

theorem scanRec_none_eq {l : List Nat} (h : memchr l = none) (c : Nat) :
    scanRec l c = some (c, l.length) := by
  rw [scanRec, h]

theorem scanRec_stuck_eq {l : List Nat} {j : Fin l.length}
    (h : memchr l = some j) (hj : j.val = 1) (c : Nat) :
    scanRec l c = none := by
  rw [scanRec, h]
  simp [hj]

theorem scanRec_step_eq {l : List Nat} {j : Fin l.length}
    (h : memchr l = some j) (hj : j.val ≠ 1) (c : Nat) :
    scanRec l c =
      scanRec (l.drop (j.val + 1)) (c + if 0 < j.val then 1 else 0) := by
  rw [scanRec, h]
  simp [hj]

theorem scanRec_none_run_aux (n : Nat) :
    ∀ l : List Nat, l.length ≤ n → ∀ c, scanRec l c = none →
      ∀ f, scanRun l f (0, c) = none := by
  induction n with
  | zero =>
    intro l hlen c hrec f
    have hl : l = [] := List.length_eq_zero.mp (by omega)
    subst hl
    have hnil : memchr ([] : List Nat) = none := rfl
    rw [scanRec_none_eq hnil] at hrec
    exact absurd hrec (by simp)
  | succ n ih =>
    intro l hlen c hrec f
    cases hm : memchr l with
    | none =>
      rw [scanRec_none_eq hm] at hrec
      exact absurd hrec (by simp)
    | some j =>
      by_cases hj : j.val = 1
      · exact scanRun_stuck hm hj f c
      · rw [scanRec_step_eq hm hj] at hrec
        cases f with
        | zero => rfl
        | succ f =>
          rw [scanRun_step1 hm hj]
          have hl : (l.drop (j.val + 1)).length ≤ n := by
            have := j.isLt
            simp only [List.length_drop]
            omega
          exact ih _ hl _ hrec f

theorem scanRec_none_run {l : List Nat} {c : Nat} (h : scanRec l c = none) :
    ∀ f, scanRun l f (0, c) = none :=
  scanRec_none_run_aux l.length l le_rfl c h

theorem scanRec_some_run_aux (n : Nat) :
    ∀ l : List Nat, l.length ≤ n → ∀ c r, scanRec l c = some r →
      ∃ f, scanRun l f (0, c) = some r := by
  induction n with
  | zero =>
    intro l hlen c r hrec
    have hl : l = [] := List.length_eq_zero.mp (by omega)
    subst hl
    have hnil : memchr ([] : List Nat) = none := rfl
    rw [scanRec_none_eq hnil] at hrec
    exact ⟨1, by
      rw [scanRun_zero_none hnil 0 c]
      simp only [Option.some.injEq] at hrec ⊢
      exact hrec⟩
  | succ n ih =>
    intro l hlen c r hrec
    cases hm : memchr l with
    | none =>
      rw [scanRec_none_eq hm] at hrec
      exact ⟨1, by
        rw [scanRun_zero_none hm 0 c]
        simp only [Option.some.injEq] at hrec ⊢
        exact hrec⟩
    | some j =>
      by_cases hj : j.val = 1
      · rw [scanRec_stuck_eq hm hj] at hrec
        exact absurd hrec (by simp)
      · rw [scanRec_step_eq hm hj] at hrec
        have hl : (l.drop (j.val + 1)).length ≤ n := by
          have := j.isLt
          simp only [List.length_drop]
          omega
        obtain ⟨f, hf⟩ := ih _ hl _ _ hrec
        exact ⟨f + 1, by rw [scanRun_step1 hm hj]; exact hf⟩

theorem scanRec_some_run {l : List Nat} {c : Nat} {r : Nat × Nat}
    (h : scanRec l c = some r) : ∃ f, scanRun l f (0, c) = some r :=
  scanRec_some_run_aux l.length l le_rfl c r h

/-- The fuel-indexed embedding of the `JSONBuffer::Scan` loop exits with
result `r` for some fuel iff the well-founded reformulation computes
`some r`. -/
theorem scanRun_some_iff_scanRec (l : List Nat) (c : Nat) (r : Nat × Nat) :
    (∃ f, scanRun l f (0, c) = some r) ↔ scanRec l c = some r := by
  constructor
  · rintro ⟨f, hf⟩
    cases hrec : scanRec l c with
    | none => exact absurd hf (by rw [scanRec_none_run hrec f]; simp)
    | some r' =>
      obtain ⟨f', hf'⟩ := scanRec_some_run hrec
      have h1 := scanRun_mono l f (0, c) r (max f f') hf (le_max_left f f')
      have h2 := scanRun_mono l f' (0, c) r' (max f f') hf' (le_max_right f f')
      rw [h1] at h2
      simp only [Option.some.injEq] at h2
      rw [h2]
  · intro h
    exact scanRec_some_run h

theorem scanRec_shift_aux (n : Nat) :
    ∀ l : List Nat, l.length ≤ n → ∀ c,
      scanRec l c = (scanRec l 0).map (fun r => (c + r.1, r.2)) := by
  induction n with
  | zero =>
    intro l hlen c
    have hl : l = [] := List.length_eq_zero.mp (by omega)
    subst hl
    have hnil : memchr ([] : List Nat) = none := rfl
    rw [scanRec_none_eq hnil, scanRec_none_eq hnil]
    simp
  | succ n ih =>
    intro l hlen c
    cases hm : memchr l with
    | none =>
      rw [scanRec_none_eq hm, scanRec_none_eq hm]
      simp
    | some j =>
      by_cases hj : j.val = 1
      · rw [scanRec_stuck_eq hm hj, scanRec_stuck_eq hm hj]
        simp
      · rw [scanRec_step_eq hm hj, scanRec_step_eq hm hj]
        have hl : (l.drop (j.val + 1)).length ≤ n := by
          have := j.isLt
          simp only [List.length_drop]
          omega
        rw [ih _ hl, ih _ hl (0 + if 0 < j.val then 1 else 0)]
        cases scanRec (l.drop (j.val + 1)) 0 with
        | none => simp
        | some r =>
          by_cases h0 : 0 < j.val <;>
            simp only [h0, if_true, if_false, Option.map_some', Option.some.injEq,
              Prod.mk.injEq] <;>
            exact ⟨by omega, trivial⟩

theorem scanRec_shift (l : List Nat) (c : Nat) :
    scanRec l c = (scanRec l 0).map (fun r => (c + r.1, r.2)) :=
  scanRec_shift_aux l.length l le_rfl c

theorem scanRec_tail_le_aux (n : Nat) :
    ∀ l : List Nat, l.length ≤ n → ∀ c nj t,
      scanRec l c = some (nj, t) → t ≤ l.length := by
  induction n with
  | zero =>
    intro l hlen c nj t hrec
    have hl : l = [] := List.length_eq_zero.mp (by omega)
    subst hl
    have hnil : memchr ([] : List Nat) = none := rfl
    rw [scanRec_none_eq hnil] at hrec
    simp only [Option.some.injEq, Prod.mk.injEq] at hrec
    omega
  | succ n ih =>
    intro l hlen c nj t hrec
    cases hm : memchr l with
    | none =>
      rw [scanRec_none_eq hm] at hrec
      simp only [Option.some.injEq, Prod.mk.injEq] at hrec
      omega
    | some j =>
      by_cases hj : j.val = 1
      · rw [scanRec_stuck_eq hm hj] at hrec
        exact absurd hrec (by simp)
      · rw [scanRec_step_eq hm hj] at hrec
        have hl : (l.drop (j.val + 1)).length ≤ n := by
          have := j.isLt
          simp only [List.length_drop]
          omega
        have := ih _ hl _ _ _ hrec
        simp only [List.length_drop] at this
        omega

theorem scanRec_tail_le {l : List Nat} {c nj t : Nat}
    (h : scanRec l c = some (nj, t)) : t ≤ l.length :=
  scanRec_tail_le_aux l.length l le_rfl c nj t h

/-!
## Concatenation: scanning `s1 ++ s2` versus scanning `s1`, spilling the
tail, and scanning `spill ++ s2`
-/

theorem scanRec_append_aux (n : Nat) :
    ∀ s1 : List Nat, s1.length ≤ n → ∀ s2 : List Nat,
      scanRec (s1 ++ s2) 0 =
        (scanRec s1 0).bind (fun r1 =>
          (scanRec (s1.drop (s1.length - r1.2) ++ s2) 0).map
            (fun r2 => (r1.1 + r2.1, r2.2))) := by
  induction n with
  | zero =>
    intro s1 hlen s2
    have hl : s1 = [] := List.length_eq_zero.mp (by omega)
    subst hl
    have hnil : memchr ([] : List Nat) = none := rfl
    rw [scanRec_none_eq hnil]
    simp only [List.nil_append, List.length_nil, Nat.sub_self, List.drop_nil,
      Option.some_bind]
    cases h2 : scanRec s2 0 with
    | none => simp
    | some r2 => simp

  | succ n ih =>
    intro s1 hlen s2
    cases hm : memchr s1 with
    | none =>
      rw [scanRec_none_eq hm]
      simp only [Option.some_bind, Nat.sub_self, List.drop_zero]
      cases h2 : scanRec (s1 ++ s2) 0 with
      | none => simp [h2]
      | some r2 => simp [h2]
    | some j =>
      by_cases hj : j.val = 1
      · rw [scanRec_stuck_eq hm hj]
        have hav : (memchr (s1 ++ s2)).map Fin.val = some j.val :=
          memchr_append_val hm
        rw [Option.map_eq_some'] at hav
        obtain ⟨j2, hj2, hv2⟩ := hav
        rw [scanRec_stuck_eq hj2 (by rw [hv2]; exact hj)]
        simp
      · have hlt := j.isLt
        have hav : (memchr (s1 ++ s2)).map Fin.val = some j.val :=
          memchr_append_val hm
        rw [Option.map_eq_some'] at hav
        obtain ⟨j2, hj2, hv2⟩ := hav
        have hdrop : (s1 ++ s2).drop (j.val + 1) = s1.drop (j.val + 1) ++ s2 :=
          List.drop_append_of_le_length (by omega)
        rw [scanRec_step_eq hj2 (by rw [hv2]; exact hj), hv2, hdrop,
          scanRec_step_eq hm hj]
        rw [scanRec_shift (s1.drop (j.val + 1) ++ s2)
            (0 + if 0 < j.val then 1 else 0),
          scanRec_shift (s1.drop (j.val + 1)) (0 + if 0 < j.val then 1 else 0)]
        have hln : (s1.drop (j.val + 1)).length ≤ n := by
          simp only [List.length_drop]
          omega
        rw [ih _ hln s2]
        cases hr1 : scanRec (s1.drop (j.val + 1)) 0 with
        | none => simp
        | some r1 =>
          obtain ⟨n1, t1⟩ := r1
          have ht1 : t1 ≤ (s1.drop (j.val + 1)).length := scanRec_tail_le hr1
          simp only [List.length_drop] at ht1
          have hsp : s1.drop (s1.length - t1) =
              (s1.drop (j.val + 1)).drop ((s1.drop (j.val + 1)).length - t1) := by
            rw [List.drop_drop, List.length_drop]
            congr 1
            omega
          simp only [Option.some_bind, Option.map_some']
          rw [← hsp]
          cases hr2 : scanRec (s1.drop (s1.length - t1) ++ s2) 0 with
          | none => simp
          | some r2 =>
            obtain ⟨n2, t2⟩ := r2
            simp only [Option.map_some', Option.some_bind, Option.some.injEq,
              Prod.mk.injEq]
            exact ⟨by omega, trivial⟩

theorem scanRec_append (s1 s2 : List Nat) :
    scanRec (s1 ++ s2) 0 =
      (scanRec s1 0).bind (fun r1 =>
        (scanRec (s1.drop (s1.length - r1.2) ++ s2) 0).map
          (fun r2 => (r1.1 + r2.1, r2.2))) :=
  scanRec_append_aux s1.length s1 le_rfl s2

/-- Dropping all but the last `t` elements ignores any prefix whose removal
still leaves at least `t` elements. -/
theorem drop_sub_append {p z : List Nat} {t : Nat} (h : t ≤ z.length) :
    (p ++ z).drop ((p ++ z).length - t) = z.drop (z.length - t) := by
  rw [List.length_append]
  have h2 : p.length + z.length - t = p.length + (z.length - t) := by omega
  rw [h2, List.drop_append]

theorem suffix_drop_sub_append (x y : List Nat) (d t : Nat)
    (h : t ≤ (x.drop d ++ y).length) :
    (x ++ y).drop ((x ++ y).length - t) =
      (x.drop d ++ y).drop ((x.drop d ++ y).length - t) := by
  have hx : x ++ y = x.take d ++ (x.drop d ++ y) := by
    rw [← List.append_assoc, List.take_append_drop]
  rw [hx]
  exact drop_sub_append h

theorem clientStepRec_eq_none {sp sl : List Nat} (seq : Nat)
    (h : scanRec (sp ++ sl) 0 = none) : clientStepRec sp seq sl = none := by
  unfold clientStepRec
  rw [h]

theorem clientStepRec_eq_some {sp sl : List Nat} (seq : Nat) {n t : Nat}
    (h : scanRec (sp ++ sl) 0 = some (n, t)) :
    clientStepRec sp seq sl =
      some ⟨(sp ++ sl).drop ((sp ++ sl).length - t), seq + n, n⟩ := by
  unfold clientStepRec
  rw [h]

theorem feedTwoRec_eq_feedOneRec (s1 s2 : List Nat) (seq : Nat) :
    feedTwoRec s1 s2 seq = feedOneRec (s1 ++ s2) seq := by
  have happ := scanRec_append s1 s2
  cases hr1 : scanRec s1 0 with
  | none =>
    have hr1n : scanRec ([] ++ s1) 0 = none := by rwa [List.nil_append]
    have hc : scanRec (s1 ++ s2) 0 = none := by
      rw [happ, hr1]; rfl
    have hcn : scanRec ([] ++ (s1 ++ s2)) 0 = none := by rwa [List.nil_append]
    unfold feedTwoRec feedOneRec
    rw [clientStepRec_eq_none seq hr1n, clientStepRec_eq_none seq hcn]
  | some r1 =>
    obtain ⟨n1, t1⟩ := r1
    have hr1s : scanRec ([] ++ s1) 0 = some (n1, t1) := by rwa [List.nil_append]
    have hstep1 := clientStepRec_eq_some seq hr1s
    rw [List.nil_append] at hstep1
    cases hr2 : scanRec (s1.drop (s1.length - t1) ++ s2) 0 with
    | none =>
      have hc : scanRec (s1 ++ s2) 0 = none := by
        rw [happ, hr1]
        dsimp only [Option.some_bind]
        rw [hr2]
        rfl
      have hcn : scanRec ([] ++ (s1 ++ s2)) 0 = none := by rwa [List.nil_append]
      unfold feedTwoRec feedOneRec
      rw [hstep1, clientStepRec_eq_none seq hcn]
      dsimp only
      rw [clientStepRec_eq_none (seq + n1) hr2]
    | some r2 =>
      obtain ⟨n2, t2⟩ := r2
      have hc : scanRec (s1 ++ s2) 0 = some (n1 + n2, t2) := by
        rw [happ, hr1]
        dsimp only [Option.some_bind]
        rw [hr2]
        rfl
      have hcs : scanRec ([] ++ (s1 ++ s2)) 0 = some (n1 + n2, t2) := by
        rwa [List.nil_append]
      have hstepc := clientStepRec_eq_some seq hcs
      rw [List.nil_append] at hstepc
      have hstep2 := clientStepRec_eq_some (seq + n1) hr2
      unfold feedTwoRec feedOneRec
      rw [hstep1]
      dsimp only
      rw [hstep2, hstepc]
      have ht2 : t2 ≤ (s1.drop (s1.length - t1) ++ s2).length :=
        scanRec_tail_le hr2
      have hsp := suffix_drop_sub_append s1 s2 (s1.length - t1) t2 ht2
      rw [hsp]
      simp only [Option.some.injEq, FeedResult.mk.injEq]
      exact ⟨trivial, by omega, trivial⟩

theorem clientStep_some_iff (sp : List Nat) (seq : Nat) (sl : List Nat)
    (r : FeedResult) :
    (∃ f, clientStep sp seq sl f = some r) ↔ clientStepRec sp seq sl = some r := by
  unfold clientStep clientStepRec
  constructor
  · rintro ⟨f, hf⟩
    cases hscan : scanRun (sp ++ sl) f (0, 0) with
    | none => rw [hscan] at hf; exact absurd hf (by simp)
    | some q =>
      obtain ⟨n, t⟩ := q
      rw [hscan] at hf
      have hrec : scanRec (sp ++ sl) 0 = some (n, t) :=
        (scanRun_some_iff_scanRec (sp ++ sl) 0 (n, t)).mp ⟨f, hscan⟩
      rw [hrec]
      exact hf
  · intro h
    cases hscan : scanRec (sp ++ sl) 0 with
    | none => rw [hscan] at h; exact absurd h (by simp)
    | some q =>
      obtain ⟨n, t⟩ := q
      rw [hscan] at h
      obtain ⟨f, hf⟩ := (scanRun_some_iff_scanRec (sp ++ sl) 0 (n, t)).mpr hscan
      exact ⟨f, by rw [hf]; exact h⟩

theorem feedTwo_some_iff (s1 s2 : List Nat) (seq : Nat) (r : FeedResult) :
    (∃ f1 f2, feedTwo s1 s2 seq f1 f2 = some r) ↔
      feedTwoRec s1 s2 seq = some r := by
  unfold feedTwo feedTwoRec
  constructor
  · rintro ⟨f1, f2, hf⟩
    cases h1 : clientStep [] seq s1 f1 with
    | none => rw [h1] at hf; exact absurd hf (by simp)
    | some r1 =>
      rw [h1] at hf
      dsimp only at hf
      have hr1 : clientStepRec [] seq s1 = some r1 :=
        (clientStep_some_iff [] seq s1 r1).mp ⟨f1, h1⟩
      rw [hr1]
      dsimp only
      cases h2 : clientStep r1.spill r1.seq s2 f2 with
      | none => rw [h2] at hf; exact absurd hf (by simp)
      | some r2 =>
        rw [h2] at hf
        have hr2 : clientStepRec r1.spill r1.seq s2 = some r2 :=
          (clientStep_some_iff r1.spill r1.seq s2 r2).mp ⟨f2, h2⟩
        rw [hr2]
        exact hf
  · intro h
    cases h1 : clientStepRec [] seq s1 with
    | none => rw [h1] at h; exact absurd h (by simp)
    | some r1 =>
      rw [h1] at h
      dsimp only at h
      obtain ⟨f1, hf1⟩ := (clientStep_some_iff [] seq s1 r1).mpr h1
      cases h2 : clientStepRec r1.spill r1.seq s2 with
      | none => rw [h2] at h; exact absurd h (by simp)
      | some r2 =>
        rw [h2] at h
        obtain ⟨f2, hf2⟩ := (clientStep_some_iff r1.spill r1.seq s2 r2).mpr h2
        refine ⟨f1, f2, ?_⟩
        rw [hf1]
        dsimp only
        rw [hf2]
        exact h

/-!
## The queueing client enqueue loop
-/

theorem memchrFrom_none_count {s : List Nat} {start : Nat}
    (h : memchrFrom s start = none) : (s.drop start).count newline = 0 := by
  simp only [memchrFrom, Option.map_eq_none'] at h
  exact memchr_none_count h

theorem memchrFrom_some_count {s : List Nat} {start j : Nat}
    (h : memchrFrom s start = some j) :
    (s.drop start).count newline = (s.drop (j + 1)).count newline + 1 := by
  simp only [memchrFrom, Option.map_eq_some'] at h
  obtain ⟨j0, hj0, rfl⟩ := h
  have := memchr_some_count hj0
  rw [List.drop_drop] at this
  have harith : start + (j0.val + 1) = j0.val + start + 1 := by omega
  rw [harith] at this
  exact this

theorem enqueueLoop_none_eq {s : List Nat} {start : Nat}
    (h : memchrFrom s start = none) (buf : List Nat) (seq : Nat) :
    enqueueLoop s start buf seq = ([], seq, buf ++ s.drop start) := by
  rw [enqueueLoop]
  split
  · rfl
  · rename_i j heq
    rw [h] at heq
    exact absurd heq (by simp)

theorem enqueueLoop_some_eq {s : List Nat} {start j : Nat}
    (h : memchrFrom s start = some j) (buf : List Nat) (seq : Nat) :
    enqueueLoop s start buf seq =
      ((seq, buf ++ (s.take j).drop start) :: (enqueueLoop s (j + 1) [] (seq + 1)).1,
        (enqueueLoop s (j + 1) [] (seq + 1)).2) := by
  rw [enqueueLoop]
  split
  · rename_i heq
    rw [h] at heq
    exact absurd heq (by simp)
  · rename_i j2 heq
    rw [h] at heq
    simp only [Option.some.injEq] at heq
    subst heq
    rfl

theorem enqueueLoop_spec_aux (n : Nat) :
    ∀ (s : List Nat) (start : Nat), s.length - start ≤ n →
      ∀ (buf : List Nat) (seq : Nat),
        (enqueueLoop s start buf seq).1.length = (s.drop start).count newline ∧
        (enqueueLoop s start buf seq).2.1 = seq + (s.drop start).count newline := by
  induction n with
  | zero =>
    intro s start hlen buf seq
    have hdrop : s.drop start = [] := List.drop_eq_nil_of_le (by omega)
    have hlen0 : (s.drop start).length = 0 := by rw [hdrop]; rfl
    have hm : memchrFrom s start = none := by
      cases hmm : memchr (s.drop start) with
      | none => simp [memchrFrom, hmm]
      | some j =>
        have := j.isLt
        omega
    rw [enqueueLoop_none_eq hm buf seq, hdrop]
    simp
  | succ n ih =>
    intro s start hlen buf seq
    cases hm : memchrFrom s start with
    | none =>
      rw [enqueueLoop_none_eq hm buf seq, memchrFrom_none_count hm]
      simp
    | some j =>
      obtain ⟨hsj, hjs⟩ := memchrFrom_bounds hm
      rw [enqueueLoop_some_eq hm buf seq, memchrFrom_some_count hm]
      have hlen2 : s.length - (j + 1) ≤ n := by omega
      obtain ⟨ih1, ih2⟩ := ih s (j + 1) hlen2 [] (seq + 1)
      refine ⟨?_, ?_⟩
      · simp only [List.length_cons, ih1]
      · simp only [ih2]
        omega

/-!
## Claims
-/

/-- C1: the spec claims that `JSONBuffer::Scan` on a slice of `k` non-empty
separator-terminated records plus a separator-free tail returns
`(k, |tail|)`, advancing the record start past every separator that is not
the final byte.  The code is wrong: its advance guard is
`json_start != json_end - 1`, which refuses to advance exactly when the
record has length 1, so on the slice `"a\n"` (one record `"a"`, no tail)
the do-while loop re-finds the same separator forever and `Scan` never
returns — instead of returning `(1, 0)` as the claim states. -/
theorem scan_one_byte_record_never_returns :
    ∀ fuel, scan [97, newline] fuel = none := by
  intro fuel
  have hm : memchr [97, newline] = some ⟨1, by norm_num⟩ := rfl
  exact scanRun_stuck hm rfl fuel 0

/-- C2: the spec claims `Producer::Start` gives worker 0 exactly
`B/T + (B mod T)` batches and the others `B/T`, summing to `B` (likewise
`J/T` with remainder `J mod T` when batching is disabled).  The code
computes the remainder as `B % (B/T)` (modulo the per-thread share, not the
thread count): with `B = 5, T = 4` every worker gets `5/4 + (5 % 1) = 1`
batch, the counts sum to 4, not 5, and worker 0 does not get
`5/4 + 5%4 = 2`; the disabled-batching `J` split loses a record the same
way. -/
theorem producer_start_split_drops_batches :
    ((producerStartSplit 1 5 4 true).map ThreadWork.batches).sum = 4 ∧
    (producerStartSplit 1 5 4 true).map ThreadWork.batches = [1, 1, 1, 1] ∧
    5 / 4 + 5 % 4 = 2 ∧
    ((producerStartSplit 5 1 4 false).map ThreadWork.jsons).sum = 4 ∧
    (producerStartSplit 5 1 4 false).map ThreadWork.jsons = [1, 1, 1, 1] := by
  decide

/-- C3: the spec claims `LatencyTracker::Get(index, stage)` fails with an
out-of-range error iff `stage ≥ num_stages` or `index ≥ num_samples`.  The
code checks `index > num_samples_` (strict), so the boundary
`index = num_samples` passes the check and the read
`points_[index * num_stages + stage]` lands outside the
`num_samples * num_stages` allocation: for a tracker with one sample and
one stage, `Get(1, 0)` reads offset 1 of a 1-slot array instead of
failing. -/
theorem latencyTracker_get_boundary_reads_out_of_bounds :
    (⟨1, 1, 1, [42]⟩ : LatencyTracker).get 1 0 = GetOutcome.oobRead 1 ∧
    (⟨1, 1, 1, [42]⟩ : LatencyTracker).get 1 0 ≠ GetOutcome.outOfRange := by
  decide

/-- C4 (counterexample): the claim says that after a `Scan` returning
`num_jsons = 0` the buffer's `seq_range` holds the canonical empty value
`{0,0}`.  But `Scan` executes `SetRange({first, first + num_jsons - 1})`
unconditionally: scanning `"{}"` (no separator) with starting sequence
number 1 returns `(0, 2)` and stores `seq_range = {1, 0}` (the `uint64_t`
wrap of `1 + 0 - 1`), which is not `{0,0}`. -/
theorem scan_zero_jsons_seq_range_not_canonical :
    scanWithRange [123, 125] 1 1 = some ((0, 2), ⟨1, 0⟩) ∧
    (⟨1, 0⟩ : SeqRange) ≠ resetSeqRange := by
  exact ⟨rfl, by decide⟩

/-- C4 (amended): after every terminating `Scan` with starting sequence
number `seq` returning `(n, t)`, the stored range is
`{seq, (seq + n - 1) mod 2^64}`: for `n > 0` (and no `uint64_t` overflow)
that is `{seq, seq + n - 1}` with `last - first + 1 = n`, as claimed; for
`n = 0` it is the wrapped `{seq, (seq + 2^64 - 1) mod 2^64}` — not the
canonical `{0,0}`, which only `JSONBuffer::Reset` stores. -/
theorem scan_seq_range_formula (s : List Nat) (seq fuel n t : Nat)
    (rg : SeqRange) (hlt : seq + n < UINT64)
    (h : scanWithRange s seq fuel = some ((n, t), rg)) :
    rg.first = seq ∧
    (0 < n → rg.last = seq + n - 1 ∧ rg.last - rg.first + 1 = n) ∧
    (n = 0 → rg.last = (seq + (UINT64 - 1)) % UINT64) := by
  have hU : 0 < UINT64 := by
    unfold UINT64
    positivity
  unfold scanWithRange at h
  cases hs : scanRun s fuel (0, 0) with
  | none => rw [hs] at h; exact absurd h (by simp)
  | some q =>
    rw [hs] at h
    simp only [Option.map_some', Option.some.injEq] at h
    have hq : q = (n, t) := congrArg Prod.fst h
    have hrg : (⟨seq, (seq + q.1 + (UINT64 - 1)) % UINT64⟩ : SeqRange) = rg :=
      congrArg Prod.snd h
    subst hq
    dsimp only at hrg
    subst hrg
    refine ⟨rfl, ?_, ?_⟩
    · intro hn
      have hlast : (seq + n + (UINT64 - 1)) % UINT64 = seq + n - 1 := by
        have h1 : seq + n + (UINT64 - 1) = (seq + n - 1) + UINT64 := by omega
        rw [h1, Nat.add_mod_right]
        exact Nat.mod_eq_of_lt (by omega)
      dsimp only
      refine ⟨hlast, ?_⟩
      rw [hlast]
      omega
    · intro hn
      dsimp only
      rw [hn, Nat.add_zero]

/-- C4 (witness): instantiating the amended range formula at the slice
`"{}\n"` with starting sequence number 5 and fuel 2. -/
theorem scan_seq_range_formula_witness :
    (5 + 1 < UINT64) ∧
    scanWithRange [123, 125, newline] 5 2 = some ((1, 0), ⟨5, 5⟩) ∧
    ((⟨5, 5⟩ : SeqRange).first = 5 ∧
      (0 < 1 → (⟨5, 5⟩ : SeqRange).last = 5 + 1 - 1 ∧
        (⟨5, 5⟩ : SeqRange).last - (⟨5, 5⟩ : SeqRange).first + 1 = 1) ∧
      ((1 : Nat) = 0 → (⟨5, 5⟩ : SeqRange).last = (5 + (UINT64 - 1)) % UINT64)) :=
  ⟨by norm_num [UINT64], rfl,
    scan_seq_range_formula [123, 125, newline] 5 2 1 0 ⟨5, 5⟩
      (by norm_num [UINT64]) rfl⟩

/-- C5 (counterexample): the claim says the queueing client applies the
same scan algorithm as the buffering client, so a record of length zero
(two adjacent separators) is ignored, not enqueued, and does not advance
`seq`.  On the buffer `"\n"` (one separator) the buffering scan counts 0
records, but `EnqueueAllJSONsInBuffer` enqueues the item `{7, ""}` and
advances `seq` from 7 to 8. -/
theorem enqueue_empty_record_enqueued_and_advances_seq :
    scan [newline] 2 = some (0, 0) ∧
    enqueueAllJSONsInBuffer [] [newline] 7 = ([(7, [])], 8, []) ∧
    (enqueueAllJSONsInBuffer [] [newline] 7).1.length ≠ 0 ∧
    (enqueueAllJSONsInBuffer [] [newline] 7).2.1 ≠ 7 := by
  have h0 : memchrFrom [newline] 0 = some 0 := rfl
  have h1 : memchrFrom [newline] (0 + 1) = none := rfl
  have he : enqueueAllJSONsInBuffer [] [newline] 7 = ([(7, [])], 8, []) := by
    rw [enqueueAllJSONsInBuffer, enqueueLoop_some_eq h0, enqueueLoop_none_eq h1]
    rfl
  refine ⟨rfl, he, ?_, ?_⟩
  · rw [he]
    decide
  · rw [he]
    decide

/-- C5 (amended): `EnqueueAllJSONsInBuffer` does not ignore zero-length
records: every separator byte in the valid region produces exactly one
enqueued `JSONItem` (possibly with an empty string) and advances `seq` by
one, so the number of items enqueued equals the number of separator bytes
scanned, and the final `seq` is the initial `seq` plus that count. -/
theorem enqueue_count_eq_separator_count (buf s : List Nat) (seq : Nat) :
    (enqueueAllJSONsInBuffer buf s seq).1.length = s.count newline ∧
    (enqueueAllJSONsInBuffer buf s seq).2.1 = seq + s.count newline := by
  have h := enqueueLoop_spec_aux (s.length - 0) s 0 le_rfl buf seq
  simpa [enqueueAllJSONsInBuffer] using h

/-- C6: feeding the buffering client's receive-scan-spill step one slice of
`N` bytes is observationally equivalent to feeding it the two slices
`s.take i` and `s.drop i` whose concatenation is those `N` bytes: one run
terminates iff the other does, and on termination the total `num_jsons`
counted and the final sequence number (hence the end-to-end range of
assigned sequence numbers) coincide. -/
theorem feed_split_observational_equiv (s : List Nat) (i seq : Nat) :
    ((∃ f r, feedOne s seq f = some r) ↔
      (∃ f1 f2 r, feedTwo (s.take i) (s.drop i) seq f1 f2 = some r)) ∧
    (∀ f f1 f2 r r2, feedOne s seq f = some r →
      feedTwo (s.take i) (s.drop i) seq f1 f2 = some r2 →
      r2.total = r.total ∧ r2.seq = r.seq) := by
  have hkey : feedTwoRec (s.take i) (s.drop i) seq = feedOneRec s seq := by
    rw [feedTwoRec_eq_feedOneRec, List.take_append_drop]
  constructor
  · constructor
    · rintro ⟨f, r, hf⟩
      have h1 : feedOneRec s seq = some r := by
        unfold feedOneRec
        exact (clientStep_some_iff [] seq s r).mp ⟨f, hf⟩
      have h2 : feedTwoRec (s.take i) (s.drop i) seq = some r := by
        rw [hkey]
        exact h1
      obtain ⟨f1, f2, hf12⟩ :=
        (feedTwo_some_iff (s.take i) (s.drop i) seq r).mpr h2
      exact ⟨f1, f2, r, hf12⟩
    · rintro ⟨f1, f2, r, hf⟩
      have h2 : feedTwoRec (s.take i) (s.drop i) seq = some r :=
        (feedTwo_some_iff (s.take i) (s.drop i) seq r).mp ⟨f1, f2, hf⟩
      have h1 : feedOneRec s seq = some r := by
        rw [← hkey]
        exact h2
      unfold feedOneRec at h1
      obtain ⟨f, hf1⟩ := (clientStep_some_iff [] seq s r).mpr h1
      exact ⟨f, r, hf1⟩
  · intro f f1 f2 r r2 hf hf2
    have h1 : feedOneRec s seq = some r := by
      unfold feedOneRec
      exact (clientStep_some_iff [] seq s r).mp ⟨f, hf⟩
    have h2 : feedTwoRec (s.take i) (s.drop i) seq = some r2 :=
      (feedTwo_some_iff (s.take i) (s.drop i) seq r2).mp ⟨f1, f2, hf2⟩
    rw [hkey, h1] at h2
    simp only [Option.some.injEq] at h2
    subst h2
    exact ⟨rfl, rfl⟩

/-- C6 (witness): the slice `"ab\n"` split after its first byte: both runs
terminate with one record counted and final sequence number 6. -/
theorem feed_split_observational_equiv_witness :
    feedOne [97, 98, newline] 5 2 = some ⟨[], 6, 1⟩ ∧
    feedTwo ([97, 98, newline].take 1) ([97, 98, newline].drop 1) 5 1 2 =
      some ⟨[], 6, 1⟩ ∧
    ((⟨[], 6, 1⟩ : FeedResult).total = (⟨[], 6, 1⟩ : FeedResult).total ∧
      (⟨[], 6, 1⟩ : FeedResult).seq = (⟨[], 6, 1⟩ : FeedResult).seq) :=
  ⟨rfl, rfl,
    (feed_split_observational_equiv [97, 98, newline] 1 5).2 2 1 2
      ⟨[], 6, 1⟩ ⟨[], 6, 1⟩ rfl rfl⟩

/-- C7: the spec claims that once the shutdown flag is set a production
worker never starts a new batch, makes at most one more enqueue attempt and
exits.  The for-loop over batches never re-checks the flag: with shutdown
already set before the thread starts, 2 assigned batches, and a queue that
rejects every enqueue, the worker still assembles both batches and makes
two enqueue attempts (one per batch) before exiting. -/
theorem production_thread_continues_after_shutdown :
    productionThread 2 (fun _ => false) true 1 = some ⟨2, 2, 0, 0⟩ ∧
    ¬((2 : Nat) ≤ 1) := by
  exact ⟨rfl, by omega⟩

/-- C8 (counterexample): the claim says the send loop of
`Server::SendJSONs` fails whenever the socket send reports fewer bytes
transferred than the batch's length.  The code only checks the socket
status: a send of a 1-byte batch that reports 0 bytes transferred with a
`valid` status makes the loop continue (`none`), not fail. -/
theorem send_partial_write_not_detected :
    sendBatchStep (0, SocketStatus.valid) [65] = none ∧
    (0 : Nat) < [65].length := by
  exact ⟨rfl, by decide⟩

/-- C8 (amended): the per-batch send check of `Server::SendJSONs` returns
an error iff the socket status after the send is not `valid`; the number
of bytes transferred is never compared with the batch length, so a partial
write with a valid status is not detected. -/
theorem send_fails_iff_socket_invalid (send_result : Nat × SocketStatus)
    (batch : List Nat) :
    (sendBatchStep send_result batch).isSome ↔
      send_result.2 ≠ SocketStatus.valid := by
  unfold sendBatchStep
  by_cases h : send_result.2 = SocketStatus.valid <;> simp [h]

/-- C9: the spec claims every exit path of
`BufferingClient::ReceiveJSONs`, including the `ClientError` paths,
releases the held buffer mutex and frees the spill allocation.  On the
exit taken when `recv` reports a socket status that is neither valid nor
cleanly disconnected, the function returns `ClientError` with the acquired
buffer mutex still locked and `free(spill)` never executed. -/
theorem receive_error_exit_keeps_mutex_and_spill :
    receiveIterOutcome true true false (SocketStatus.errored 5) =
      some ⟨true, true, false⟩ ∧
    (ExitInfo.mk true true false).isError = true ∧
    (ExitInfo.mk true true false).mutexHeld = true ∧
    (ExitInfo.mk true true false).spillFreed = false := by
  decide

/-- C10: `JSONBuffer::Create` returns a `ClientError` iff the supplied
backing pointer is null or the capacity is zero; otherwise it returns OK
and the resulting buffer starts empty (`size = 0`) with the given
capacity. -/
theorem jsonBuffer_create_spec (isNull : Bool) (cap : Nat) :
    ((∃ e, jsonBufferCreate isNull cap = .error e) ↔ (isNull = true ∨ cap = 0)) ∧
    (∀ st, jsonBufferCreate isNull cap = .ok st →
      st.size = 0 ∧ st.capacity = cap) := by
  unfold jsonBufferCreate
  cases isNull with
  | true => simp
  | false =>
    by_cases hc : cap = 0
    · simp [hc]
    · constructor
      · simp [hc]
      · intro st h
        simp only [Bool.false_eq_true, if_false, hc, if_neg hc] at h
        simp only [Except.ok.injEq] at h
        rw [← h]
        exact ⟨rfl, rfl⟩

/-- C10 (witness): creating a buffer with a non-null pointer and capacity 4
succeeds with an empty buffer of capacity 4. -/
theorem jsonBuffer_create_spec_witness :
    jsonBufferCreate false 4 = .ok ⟨0, 4, ⟨0, 0⟩⟩ ∧
    ((⟨0, 4, ⟨0, 0⟩⟩ : JSONBufferState).size = 0 ∧
      (⟨0, 4, ⟨0, 0⟩⟩ : JSONBufferState).capacity = 4) :=
  ⟨rfl, (jsonBuffer_create_spec false 4).2 ⟨0, 4, ⟨0, 0⟩⟩ rfl⟩

end Illex